import Mathlib

/-!
Verification development for the vlasiator test-particle tracing core.

The embedding follows the C++ sources:
  - src/particles/particles.cpp : `Particle::push` (Boris pusher), `writeParticles`
  - src/unnamed/part_000        : scenario hooks (`afterPush`, `newTimestep`,
                                  `initialParticles`, `createScenario`)

Headers of the repository (vector3d.h, relativistic_math.h, physconst.h,
parameters.h) are not among the provided sources; the primitives they declare
(dot product, cross product, Euclidean length, the Lorentz factor and the SI
physical constants) are modelled from the spec, section 4.1, and marked so in
their doc comments.  Scalars are embedded as exact reals; a second NaN-aware
embedding (`DReal`, an `Option` over the reals where `none` plays the role of
IEEE NaN) is used for the claims about disabled-particle sentinels.
-/

namespace Vlasiator

/-- Modelled from the spec (section 4.1): physconst.h is not among the provided
sources; the spec fixes the unit system to SI, so the speed of light, the proton
mass and the elementary charge are given their SI values.  No theorem below
depends on the numerical values, only on `c` being nonzero. -/
def lightspeed : ℝ := 299792458

/-- Modelled from the spec: SI proton mass (value immaterial to the theorems). -/
def protonMass : ℝ := 1.67262158e-27

/-- Modelled from the spec: SI elementary charge (value immaterial). -/
def elemCharge : ℝ := 1.60217653e-19

/-! ## Real-valued 3-vectors (exact-arithmetic embedding of Vec3d) -/

/-- A 3D real vector, the exact-arithmetic embedding of `Vec3d`. -/
structure Vec3 where
  c0 : ℝ
  c1 : ℝ
  c2 : ℝ

namespace Vec3

/-- Componentwise vector addition (`Vec3d::operator+`). -/
noncomputable def add (a b : Vec3) : Vec3 := ⟨a.c0 + b.c0, a.c1 + b.c1, a.c2 + b.c2⟩

/-- Scalar times vector (`double * Vec3d`). -/
noncomputable def smul (s : ℝ) (a : Vec3) : Vec3 := ⟨s * a.c0, s * a.c1, s * a.c2⟩

/-- Vector divided by scalar (`Vec3d / double`). -/
noncomputable def sdiv (a : Vec3) (s : ℝ) : Vec3 := ⟨a.c0 / s, a.c1 / s, a.c2 / s⟩

/-- The zero vector. -/
def zero : Vec3 := ⟨0, 0, 0⟩

end Vec3

/-- Modelled from the spec (section 4.1): dot product of vector3d.h. -/
def dot_product (a b : Vec3) : ℝ := a.c0 * b.c0 + a.c1 * b.c1 + a.c2 * b.c2

/-- Modelled from the spec (section 4.1): cross product of vector3d.h. -/
noncomputable def cross_product (a b : Vec3) : Vec3 :=
  ⟨a.c1 * b.c2 - a.c2 * b.c1, a.c2 * b.c0 - a.c0 * b.c2, a.c0 * b.c1 - a.c1 * b.c0⟩

/-- Modelled from the spec (section 4.1): Euclidean length of vector3d.h. -/
noncomputable def vector_length (a : Vec3) : ℝ := Real.sqrt (dot_product a a)

/-- Modelled from the spec (section 4.1): relativistic_math.h is not among the
provided sources; the spec gives the Lorentz factor as
gamma(u) = sqrt(1 + dot(u,u)/c^2). -/
noncomputable def gamma (u : Vec3) : ℝ :=
  Real.sqrt (1 + dot_product u u / lightspeed ^ 2)

/-- A particle: mass, charge, position, velocity
(struct Particle of particles.h, fields as used by particles.cpp). -/
structure Particle where
  m : ℝ
  q : ℝ
  x : Vec3
  v : Vec3

/-- The method `Particle::push` from src/particles/particles.cpp lines 12-22, embedded as a
pure function returning the updated particle.  Every intermediate follows the
source line by line; the source reuses the variable `h` for the second
half-rotation vector, rendered here as `h2`. -/
noncomputable def Particle.push (p : Particle) (B E : Vec3) (dt : ℝ) : Particle :=
  let uminus := Vec3.add p.v (Vec3.sdiv (Vec3.smul dt (Vec3.smul p.q E)) (2 * p.m))
  let h := Vec3.sdiv (Vec3.smul dt (Vec3.smul p.q B)) (2 * p.m * gamma uminus)
  let uprime := Vec3.add uminus (cross_product uminus h)
  let h2 := Vec3.sdiv (Vec3.smul 2 h) (1 + dot_product h h)
  let uplus := Vec3.add uminus (cross_product uprime h2)
  let vnew := Vec3.add uplus (Vec3.sdiv (Vec3.smul dt (Vec3.smul p.q E)) (2 * p.m))
  { p with v := vnew, x := Vec3.add p.x (Vec3.smul dt vnew) }

/-- The Boris sequence exactly as the spec writes it (section 4.4): this
definition follows the spec text, to be compared against `Particle.push`,
which follows the source. -/
noncomputable def borisSpecPush (p : Particle) (B E : Vec3) (dt : ℝ) : Particle :=
  let halfKick := Vec3.sdiv (Vec3.smul dt (Vec3.smul p.q E)) (2 * p.m)
  let uminus := Vec3.add p.v halfKick
  let h := Vec3.sdiv (Vec3.smul dt (Vec3.smul p.q B)) (2 * p.m * gamma uminus)
  let uprime := Vec3.add uminus (cross_product uminus h)
  let hprime := Vec3.sdiv (Vec3.smul 2 h) (1 + dot_product h h)
  let uplus := Vec3.add uminus (cross_product uprime hprime)
  let vnew := Vec3.add uplus halfKick
  let xnew := Vec3.add p.x (Vec3.smul dt vnew)
  ⟨p.m, p.q, xnew, vnew⟩

/-- Claim C1: `Particle::push` performs exactly the spec's Boris sequence —
half electric kick, magnetic rotation with gamma evaluated on the pre-rotation
momentum, second half kick, then the position update — and writes no state
other than `x` and `v` (mass and charge are unchanged). -/
theorem push_matches_boris_spec (p : Particle) (B E : Vec3) (dt : ℝ) :
    p.push B E dt = borisSpecPush p B E dt ∧
    (p.push B E dt).m = p.m ∧ (p.push B E dt).q = p.q := by
  refine ⟨rfl, rfl, rfl⟩

/-- The magnetic-rotation core of the Boris step preserves the squared norm:
for any momentum u and any rotation vector t, with s = 2t/(1+t.t),
the vector u + (u + u x t) x s has the same squared norm as u. -/
theorem boris_rotation_dot (u t : Vec3) :
    dot_product
      (Vec3.add u (cross_product (Vec3.add u (cross_product u t))
        (Vec3.sdiv (Vec3.smul 2 t) (1 + dot_product t t))))
      (Vec3.add u (cross_product (Vec3.add u (cross_product u t))
        (Vec3.sdiv (Vec3.smul 2 t) (1 + dot_product t t)))) =
    dot_product u u := by
  obtain ⟨u0, u1, u2⟩ := u
  obtain ⟨t0, t1, t2⟩ := t
  have hpos : (0 : ℝ) < 1 + (t0 * t0 + t1 * t1 + t2 * t2) := by
    nlinarith [mul_self_nonneg t0, mul_self_nonneg t1, mul_self_nonneg t2]
  have hden : (1 : ℝ) + (t0 * t0 + t1 * t1 + t2 * t2) ≠ 0 := ne_of_gt hpos
  simp only [Vec3.add, Vec3.smul, Vec3.sdiv, cross_product, dot_product]
  field_simp
  ring

/-- Claim C2: with a zero electric-field sample, one `Particle::push` leaves the
Euclidean magnitude of the velocity unchanged (over exact real arithmetic):
the Boris magnetic rotation preserves momentum magnitude. -/
theorem push_zero_E_preserves_speed (p : Particle) (B : Vec3) (dt : ℝ) :
    vector_length (p.push B Vec3.zero dt).v = vector_length p.v := by
  have hkick : Vec3.sdiv (Vec3.smul dt (Vec3.smul p.q Vec3.zero)) (2 * p.m) =
      Vec3.zero := by
    simp [Vec3.sdiv, Vec3.smul, Vec3.zero]
  have hadd : ∀ w : Vec3, Vec3.add w Vec3.zero = w := by
    intro w; simp [Vec3.add, Vec3.zero]
  have hv : (p.push B Vec3.zero dt).v =
      Vec3.add p.v (cross_product (Vec3.add p.v (cross_product p.v
        (Vec3.sdiv (Vec3.smul dt (Vec3.smul p.q B)) (2 * p.m * gamma p.v))))
        (Vec3.sdiv (Vec3.smul 2
            (Vec3.sdiv (Vec3.smul dt (Vec3.smul p.q B)) (2 * p.m * gamma p.v)))
          (1 + dot_product
            (Vec3.sdiv (Vec3.smul dt (Vec3.smul p.q B)) (2 * p.m * gamma p.v))
            (Vec3.sdiv (Vec3.smul dt (Vec3.smul p.q B)) (2 * p.m * gamma p.v))))) := by
    simp only [Particle.push, hkick, hadd]
  unfold vector_length
  rw [hv, boris_rotation_dot]

/-! ## NaN-aware embedding

`DReal` embeds an IEEE double as `Option ℝ`: `none` plays the role of NaN and
propagates through every arithmetic operation, `some a` is the finite value
`a`.  Infinities are not modelled: a division whose divisor is exactly zero is
collapsed to `none`; no theorem below exercises a zero divisor (each divisor in
`Particle::push` is proved nonzero where it matters).  Comparisons against
`none` are false, matching IEEE comparisons against NaN. -/
def DReal : Type := Option ℝ

/-- Embed a finite real as a `DReal`. -/
def dr (a : ℝ) : DReal := some a

/-- The NaN value. -/
def dnan : DReal := none

/-- NaN-propagating addition. -/
def dadd : DReal → DReal → DReal
  | some a, some b => some (a + b)
  | _, _ => none

/-- NaN-propagating subtraction. -/
def dsub : DReal → DReal → DReal
  | some a, some b => some (a - b)
  | _, _ => none

/-- NaN-propagating multiplication. -/
def dmul : DReal → DReal → DReal
  | some a, some b => some (a * b)
  | _, _ => none

/-- NaN-propagating division; a zero divisor yields `none` (see module note). -/
noncomputable def ddiv : DReal → DReal → DReal
  | some a, some b => if b = 0 then none else some (a / b)
  | _, _ => none

/-- NaN-propagating square root; a negative radicand yields NaN as in IEEE. -/
noncomputable def dsqrt : DReal → DReal
  | some a => if a < 0 then none else some (Real.sqrt a)
  | none => none

/-- A 3D vector of NaN-aware scalars (the `Vec3d` of doubles). -/
structure DVec3 where
  d0 : DReal
  d1 : DReal
  d2 : DReal

/-- The zero vector over `DReal`. -/
def dzeroVec : DVec3 := ⟨dr 0, dr 0, dr 0⟩

/-- The disabled-particle sentinel position (NaN, 0, 0). -/
def dnanPos : DVec3 := ⟨dnan, dr 0, dr 0⟩

/-- Componentwise vector addition. -/
def dvadd (a b : DVec3) : DVec3 :=
  ⟨dadd a.d0 b.d0, dadd a.d1 b.d1, dadd a.d2 b.d2⟩

/-- Scalar (a finite double expression) times vector. -/
def dvsmul (s : ℝ) (a : DVec3) : DVec3 :=
  ⟨dmul (dr s) a.d0, dmul (dr s) a.d1, dmul (dr s) a.d2⟩

/-- Vector times scalar (the `Vec3d * double` form used for `* dt`). -/
def dvmulS (a : DVec3) (s : ℝ) : DVec3 :=
  ⟨dmul a.d0 (dr s), dmul a.d1 (dr s), dmul a.d2 (dr s)⟩

/-- Vector divided by a NaN-aware scalar. -/
noncomputable def dvdiv (a : DVec3) (s : DReal) : DVec3 :=
  ⟨ddiv a.d0 s, ddiv a.d1 s, ddiv a.d2 s⟩

/-- Modelled from the spec (section 4.1): dot product over NaN-aware scalars. -/
def ddot (a b : DVec3) : DReal :=
  dadd (dadd (dmul a.d0 b.d0) (dmul a.d1 b.d1)) (dmul a.d2 b.d2)

/-- Modelled from the spec (section 4.1): cross product over NaN-aware scalars. -/
def dcross (a b : DVec3) : DVec3 :=
  ⟨dsub (dmul a.d1 b.d2) (dmul a.d2 b.d1),
   dsub (dmul a.d2 b.d0) (dmul a.d0 b.d2),
   dsub (dmul a.d0 b.d1) (dmul a.d1 b.d0)⟩

/-- Modelled from the spec (section 4.1): Euclidean length over NaN-aware
scalars; it is NaN exactly when some component is NaN. -/
noncomputable def dvlen (a : DVec3) : DReal := dsqrt (ddot a a)

/-- Modelled from the spec (section 4.1): the Lorentz factor over NaN-aware
scalars, gamma(u) = sqrt(1 + dot(u,u)/c^2). -/
noncomputable def dgamma (u : DVec3) : DReal :=
  dsqrt (dadd (dr 1) (ddiv (ddot u u) (dr (lightspeed ^ 2))))

/-- A particle over NaN-aware doubles; mass and charge are set from the SI
constants at every construction site in the sources and never become NaN, so
they stay plain reals. -/
structure DParticle where
  m : ℝ
  q : ℝ
  x : DVec3
  v : DVec3

/-- The method `Particle::push` (particles.cpp lines 12-22) over the NaN-aware scalars:
the same sequence of operations as `Particle.push`, with every arithmetic step
NaN-propagating. -/
noncomputable def DParticle.push (p : DParticle) (B E : DVec3) (dt : ℝ) : DParticle :=
  let uminus := dvadd p.v (dvdiv (dvmulS (dvsmul p.q E) dt) (dr (2 * p.m)))
  let h := dvdiv (dvmulS (dvsmul p.q B) dt) (dmul (dr (2 * p.m)) (dgamma uminus))
  let uprime := dvadd uminus (dcross uminus h)
  let h2 := dvdiv (dvsmul 2 h) (dadd (dr 1) (ddot h h))
  let uplus := dvadd uminus (dcross uprime h2)
  let vnew := dvadd uplus (dvdiv (dvmulS (dvsmul p.q E) dt) (dr (2 * p.m)))
  { p with v := vnew, x := dvadd p.x (dvsmul dt vnew) }

/-- Iterate `Particle::push` over a list of (B sample, E sample, dt) steps. -/
noncomputable def pushRun (p : DParticle) : List (DVec3 × DVec3 × ℝ) → DParticle
  | [] => p
  | s :: rest => pushRun (p.push s.1 s.2.1 s.2.2) rest

theorem dadd_dr (a b : ℝ) : dadd (dr a) (dr b) = dr (a + b) := rfl

theorem dadd_none (x : DReal) : dadd none x = none := rfl

theorem dmul_dr (a b : ℝ) : dmul (dr a) (dr b) = dr (a * b) := rfl

theorem dsub_dr (a b : ℝ) : dsub (dr a) (dr b) = dr (a - b) := rfl

theorem ddiv_dr (a b : ℝ) (hb : b ≠ 0) : ddiv (dr a) (dr b) = dr (a / b) := by
  simp [ddiv, dr, hb]

theorem dsqrt_dr (a : ℝ) (ha : 0 ≤ a) : dsqrt (dr a) = dr (Real.sqrt a) := by
  simp [dsqrt, dr, not_lt.mpr ha]

/-- Pushing a particle whose position's first component is NaN keeps that
component NaN, whatever the field samples and timestep are. -/
theorem push_keeps_nan_x0 (p : DParticle) (B E : DVec3) (dt : ℝ)
    (h : p.x.d0 = none) : (p.push B E dt).x.d0 = none := by
  show dadd p.x.d0 _ = none
  rw [h, dadd_none]

/-- One push of a disabled particle with a zero electric-field sample and a
NaN-free magnetic-field sample is the identity (mass nonzero). -/
theorem push_disabled_zeroE (p : DParticle) (hm : p.m ≠ 0)
    (hx : p.x = dnanPos) (hv : p.v = dzeroVec) (b0 b1 b2 : ℝ) (dt : ℝ) :
    p.push ⟨dr b0, dr b1, dr b2⟩ dzeroVec dt = p := by
  obtain ⟨pm, pq, px, pv⟩ := p
  simp only at hm hx hv
  subst hx; subst hv
  have h2m : (2 : ℝ) * pm ≠ 0 := by
    intro h
    rcases mul_eq_zero.mp h with h2 | h2
    · norm_num at h2
    · exact hm h2
  have hkick : dvdiv (dvmulS (dvsmul pq dzeroVec) dt) (dr (2 * pm)) = dzeroVec := by
    simp [dvdiv, dvmulS, dvsmul, dzeroVec, dmul_dr, ddiv_dr _ _ h2m]
  have hgam : dgamma dzeroVec = dr 1 := by
    have hc : (lightspeed : ℝ) ^ 2 ≠ 0 := by norm_num [lightspeed]
    simp only [dgamma, ddot, dzeroVec, dmul_dr, dadd_dr, ddiv_dr _ _ hc]
    norm_num
    rw [dsqrt_dr _ (by norm_num)]
    norm_num
  have huminus : dvadd dzeroVec (dvdiv (dvmulS (dvsmul pq dzeroVec) dt) (dr (2 * pm)))
      = dzeroVec := by
    rw [hkick]; simp [dvadd, dzeroVec, dadd_dr]
  have hB1 : dvdiv (dvmulS (dvsmul pq ⟨dr b0, dr b1, dr b2⟩) dt)
      (dmul (dr (2 * pm)) (dr 1))
      = ⟨dr (pq * b0 * dt / (2 * pm)), dr (pq * b1 * dt / (2 * pm)),
         dr (pq * b2 * dt / (2 * pm))⟩ := by
    simp [dvdiv, dvmulS, dvsmul, dmul_dr, mul_one, ddiv_dr _ _ h2m]
  have hcross0 : ∀ w0 w1 w2 : ℝ,
      dcross dzeroVec ⟨dr w0, dr w1, dr w2⟩ = dzeroVec := by
    intro w0 w1 w2
    simp [dcross, dzeroVec, dmul_dr, dsub_dr]
  have hzz : dvadd dzeroVec dzeroVec = dzeroVec := by
    simp [dvadd, dzeroVec, dadd_dr]
  set hb0 := pq * b0 * dt / (2 * pm) with hb0def
  set hb1 := pq * b1 * dt / (2 * pm) with hb1def
  set hb2 := pq * b2 * dt / (2 * pm) with hb2def
  have hdenpos : (0 : ℝ) < 1 + (hb0 * hb0 + hb1 * hb1 + hb2 * hb2) := by
    nlinarith [mul_self_nonneg hb0, mul_self_nonneg hb1, mul_self_nonneg hb2]
  have hden : (1 : ℝ) + (hb0 * hb0 + hb1 * hb1 + hb2 * hb2) ≠ 0 := ne_of_gt hdenpos
  have hrot : dvdiv (dvsmul 2 ⟨dr hb0, dr hb1, dr hb2⟩)
      (dadd (dr 1) (ddot ⟨dr hb0, dr hb1, dr hb2⟩ ⟨dr hb0, dr hb1, dr hb2⟩))
      = ⟨dr (2 * hb0 / (1 + (hb0 * hb0 + hb1 * hb1 + hb2 * hb2))),
         dr (2 * hb1 / (1 + (hb0 * hb0 + hb1 * hb1 + hb2 * hb2))),
         dr (2 * hb2 / (1 + (hb0 * hb0 + hb1 * hb1 + hb2 * hb2)))⟩ := by
    simp only [ddot, dmul_dr, dadd_dr, dvdiv, dvsmul]
    simp [ddiv_dr _ _ hden]
  have hxfinal : dvadd dnanPos (dvsmul dt dzeroVec) = dnanPos := by
    simp [dvadd, dvsmul, dnanPos, dzeroVec, dnan, dmul_dr, dadd_dr, dadd_none]
  unfold DParticle.push
  simp only [huminus, hgam, hB1, hcross0, hzz, hrot, hkick, hxfinal]

/-- Any number of pushes keeps the first position component NaN. -/
theorem pushRun_keeps_nan_x0 (steps : List (DVec3 × DVec3 × ℝ)) :
    ∀ p : DParticle, p.x.d0 = none → (pushRun p steps).x.d0 = none := by
  induction steps with
  | nil => intro p h; exact h
  | cons s rest ih =>
      intro p h
      exact ih _ (push_keeps_nan_x0 p s.1 s.2.1 s.2.2 h)

/-- Claim C3 (amended): for a disabled particle — position (NaN,0,0), velocity
(0,0,0) — with nonzero mass, any sequence of pushes keeps the position's first
component NaN (so the particle stays NaN-positioned and the isnan guard keeps
skipping it); and if every step's electric-field sample is the zero vector and
every magnetic-field sample is NaN-free, the entire particle state is exactly
preserved.  With a nonzero electric-field sample the velocity does not stay
zero (see the counterexample), which is the one correction to the claim. -/
theorem pushRun_disabled_particle (p : DParticle) (steps : List (DVec3 × DVec3 × ℝ))
    (hm : p.m ≠ 0) (hx : p.x = dnanPos) (hv : p.v = dzeroVec) :
    (pushRun p steps).x.d0 = none ∧
    ((∀ s ∈ steps, s.2.1 = dzeroVec ∧ ∃ b0 b1 b2 : ℝ, s.1 = ⟨dr b0, dr b1, dr b2⟩) →
      pushRun p steps = p) := by
  refine ⟨pushRun_keeps_nan_x0 steps p (by rw [hx]; rfl), ?_⟩
  induction steps with
  | nil => intro _; rfl
  | cons s rest ih =>
      intro hcond
      obtain ⟨hE, b0, b1, b2, hB⟩ := hcond s (List.mem_cons_self s rest)
      show pushRun (p.push s.1 s.2.1 s.2.2) rest = p
      rw [hB, hE, push_disabled_zeroE p hm hx hv b0 b1 b2 s.2.2]
      exact ih (fun t ht => hcond t (List.mem_cons_of_mem s ht))

/-- Claim C3, counterexample: pushing the disabled particle (mass 1, charge 1,
position (NaN,0,0), velocity (0,0,0)) once with B = (0,0,0), E = (1,0,0) and
dt = 1 yields velocity (1,0,0), not the zero velocity the claim asserts for
all field samples. -/
theorem push_disabled_nonzero_E_changes_velocity :
    (DParticle.push ⟨1, 1, dnanPos, dzeroVec⟩ dzeroVec ⟨dr 1, dr 0, dr 0⟩ 1).v
      = ⟨dr 1, dr 0, dr 0⟩ ∧
    (⟨dr 1, dr 0, dr 0⟩ : DVec3) ≠ dzeroVec := by
  constructor
  · have hkickE : dvdiv (dvmulS (dvsmul (1 : ℝ) ⟨dr 1, dr 0, dr 0⟩) 1) (dr (2 * 1))
        = ⟨dr (1 / 2), dr 0, dr 0⟩ := by
      simp only [dvdiv, dvmulS, dvsmul, dmul_dr,
        ddiv_dr _ _ (by norm_num : (2 : ℝ) * 1 ≠ 0)]
      norm_num [dr]
    have huE : dvadd dzeroVec ⟨dr (1 / 2), dr 0, dr 0⟩ = ⟨dr (1 / 2), dr 0, dr 0⟩ := by
      simp [dvadd, dzeroVec, dadd_dr]
    have hc2 : (lightspeed : ℝ) ^ 2 ≠ 0 := by norm_num [lightspeed]
    have harg : (0 : ℝ) ≤ 1 + (1 / 2 * (1 / 2) + 0 * 0 + 0 * 0) / lightspeed ^ 2 := by
      norm_num [lightspeed]
    have hgamE : dgamma ⟨dr (1 / 2), dr 0, dr 0⟩
        = dr (Real.sqrt (1 + (1 / 2 * (1 / 2) + 0 * 0 + 0 * 0) / lightspeed ^ 2)) := by
      unfold dgamma ddot
      simp only [dmul_dr, dadd_dr]
      rw [ddiv_dr _ _ hc2, dadd_dr, dsqrt_dr _ harg]
    have hgpos : (0 : ℝ)
        < Real.sqrt (1 + (1 / 2 * (1 / 2) + 0 * 0 + 0 * 0) / lightspeed ^ 2) :=
      Real.sqrt_pos.mpr (by norm_num [lightspeed])
    have hne : (2 * 1 : ℝ)
        * Real.sqrt (1 + (1 / 2 * (1 / 2) + 0 * 0 + 0 * 0) / lightspeed ^ 2) ≠ 0 :=
      mul_ne_zero (by norm_num) (ne_of_gt hgpos)
    have hBz : dvdiv (dvmulS (dvsmul (1 : ℝ) dzeroVec) 1)
        (dmul (dr (2 * 1))
          (dr (Real.sqrt (1 + (1 / 2 * (1 / 2) + 0 * 0 + 0 * 0) / lightspeed ^ 2))))
        = dzeroVec := by
      simp only [dvdiv, dvmulS, dvsmul, dzeroVec, dmul_dr, ddiv_dr _ _ hne]
      norm_num [dr]
    have hcrz : dcross ⟨dr (1 / 2), dr 0, dr 0⟩ dzeroVec = dzeroVec := by
      simp only [dcross, dzeroVec, dmul_dr, dsub_dr]
      norm_num [dr]
    have huprime : dvadd ⟨dr (1 / 2), dr 0, dr 0⟩ dzeroVec = ⟨dr (1 / 2), dr 0, dr 0⟩ := by
      simp [dvadd, dzeroVec, dadd_dr]
    have hh2 : dvdiv (dvsmul 2 dzeroVec) (dadd (dr 1) (ddot dzeroVec dzeroVec))
        = dzeroVec := by
      simp only [dvsmul, dvdiv, ddot, dzeroVec, dmul_dr, dadd_dr]
      norm_num
      rw [ddiv_dr _ _ (by norm_num : (1 : ℝ) ≠ 0)]
      norm_num [dr]
    have hfin : dvadd ⟨dr (1 / 2), dr 0, dr 0⟩ ⟨dr (1 / 2), dr 0, dr 0⟩
        = ⟨dr 1, dr 0, dr 0⟩ := by
      simp [dvadd, dadd_dr]
      norm_num [dr]
    unfold DParticle.push
    simp only [hkickE, huE, hgamE, hBz, hcrz, huprime, hh2, hfin]
  · intro h
    have h0 := congrArg DVec3.d0 h
    simp only [dzeroVec, dr] at h0
    exact absurd (Option.some.inj h0) (by norm_num)

/-- Witness for the amended claim C3: the concrete disabled proton-like
particle with one zero-field push step. -/
theorem pushRun_disabled_particle_witness :
    (pushRun ⟨1, 1, dnanPos, dzeroVec⟩ [(dzeroVec, dzeroVec, 1)]).x.d0 = none ∧
    pushRun ⟨1, 1, dnanPos, dzeroVec⟩ [(dzeroVec, dzeroVec, 1)]
      = ⟨1, 1, dnanPos, dzeroVec⟩ := by
  have h := pushRun_disabled_particle ⟨1, 1, dnanPos, dzeroVec⟩
    [(dzeroVec, dzeroVec, 1)] (by norm_num) rfl rfl
  refine ⟨h.1, h.2 ?_⟩
  intro s hs
  rw [List.mem_singleton] at hs
  subst hs
  exact ⟨rfl, 0, 0, 0, rfl⟩

/-! ## Precipitation scenario (src/unnamed/part_000 lines 69-139) -/

/-- The ParticleParameters statics consumed by the precipitation scenario.
parameters.h/.cpp are not among the provided sources, so the values stay
abstract; every claim quantifies over them. -/
structure PrecipParams where
  precip_start_x : ℝ
  precip_stop_x : ℝ
  precip_inner_boundary : ℝ
  num_particles : ℕ

/-- The C library atan2, modelled by its standard piecewise definition
(an external math-library collaborator, not repository code). -/
noncomputable def atan2 (y x : ℝ) : ℝ :=
  if 0 < x then Real.arctan (y / x)
  else if x < 0 ∧ 0 ≤ y then Real.arctan (y / x) + Real.pi
  else if x < 0 ∧ y < 0 then Real.arctan (y / x) - Real.pi
  else if x = 0 ∧ 0 < y then Real.pi / 2
  else if x = 0 ∧ y < 0 then -(Real.pi / 2)
  else 0

/-- atan2 lifted to NaN-aware scalars. -/
noncomputable def datan2 : DReal → DReal → DReal
  | some y, some x => some (atan2 y x)
  | _, _ => none

/-- Disable a particle: position to (NaN,0,0), velocity to (0,0,0)
(part_000 lines 93-94, 100-101, 255-256, 263-264). -/
def disableP (p : DParticle) : DParticle := { p with x := dnanPos, v := dzeroVec }

/-- The injection timestep the precipitation afterPush recovers from a particle
index (part_000 line 84): i / num_particles. -/
def precipStartTimestep (P : PrecipParams) (i : ℕ) : ℕ := i / P.num_particles

/-- The injection x the precipitation afterPush recovers from a particle index
(part_000 lines 81-83). -/
noncomputable def precipStartPos (P : PrecipParams) (i : ℕ) : ℝ :=
  P.precip_start_x + ((i % P.num_particles : ℕ) : ℝ) / (P.num_particles : ℝ)
    * (P.precip_stop_x - P.precip_start_x)

/-- One event line printed by the precipitation afterPush: either a
precipitated record with latitude and energy, or a lost-marker record. -/
inductive PrecipEvent where
  | precipitated (i : ℕ) (start_timestep : ℕ) (start_pos : ℝ)
      (latitude : DReal) (energy : DReal)
  | lost (i : ℕ) (start_timestep : ℕ) (start_pos : ℝ)

/-- The body of the precipitation afterPush loop for the particle at index i
(part_000 lines 72-103): skip when the position length is NaN; otherwise
record-and-disable at the inner boundary, else record-and-disable past the
outer x threshold, else leave the particle alone. -/
noncomputable def precipStep (P : PrecipParams) (i : ℕ) (p : DParticle) :
    DParticle × Option PrecipEvent :=
  match dvlen p.x with
  | none => (p, none)
  | some r =>
      if r ≤ P.precip_inner_boundary then
        (disableP p, some (.precipitated i (precipStartTimestep P i)
          (precipStartPos P i) (datan2 p.x.d2 p.x.d0)
          (ddiv (dmul (dr (0.5 * p.m)) (ddot p.v p.v)) (dr elemCharge))))
      else
        match p.x.d0 with
        | some x0 =>
            if x0 ≤ P.precip_start_x then
              (disableP p, some (.lost i (precipStartTimestep P i) (precipStartPos P i)))
            else (p, none)
        | none => (p, none)

/-- The precipitation afterPush loop itself, threading the particle index. -/
noncomputable def precipAfterPush (P : PrecipParams) :
    ℕ → List DParticle → List DParticle × List PrecipEvent
  | _, [] => ([], [])
  | i, p :: rest =>
      let s := precipStep P i p
      let r := precipAfterPush P (i + 1) rest
      (s.1 :: r.1, (match s.2 with | some e => [e] | none => []) ++ r.2)

/-- The squared-length dot of a NaN-free vector is the plain real dot. -/
theorem dvlen_real (x0 x1 x2 : ℝ) :
    dvlen ⟨dr x0, dr x1, dr x2⟩ = some (Real.sqrt (x0 * x0 + x1 * x1 + x2 * x2)) := by
  have hnn : (0 : ℝ) ≤ x0 * x0 + x1 * x1 + x2 * x2 := by
    nlinarith [mul_self_nonneg x0, mul_self_nonneg x1, mul_self_nonneg x2]
  unfold dvlen ddot
  simp only [dmul_dr, dadd_dr]
  rw [dsqrt_dr _ hnn]
  rfl

/-- Claim C5: in the precipitation afterPush, an active particle (all position
components real) is (1) recorded as a precipitated event carrying latitude
atan2(x2,x0) and the kinetic-energy-in-eV payload, and disabled, when its
radial distance is at most the inner boundary; (2) otherwise recorded as a
lost-marker event and disabled when its x-coordinate is at most the
outer-boundary threshold precip_start_x; (3) otherwise left unchanged, its
position length staying a real value (it remains active). -/
theorem precip_afterPush_boundary_cases (P : PrecipParams) (i : ℕ) (p : DParticle)
    (x0 x1 x2 : ℝ) (hx : p.x = ⟨dr x0, dr x1, dr x2⟩) :
    (Real.sqrt (x0 * x0 + x1 * x1 + x2 * x2) ≤ P.precip_inner_boundary →
      precipStep P i p = (disableP p, some (.precipitated i
        (precipStartTimestep P i) (precipStartPos P i) (dr (atan2 x2 x0))
        (ddiv (dmul (dr (0.5 * p.m)) (ddot p.v p.v)) (dr elemCharge))))) ∧
    (¬ Real.sqrt (x0 * x0 + x1 * x1 + x2 * x2) ≤ P.precip_inner_boundary →
      x0 ≤ P.precip_start_x →
      precipStep P i p = (disableP p, some (.lost i (precipStartTimestep P i)
        (precipStartPos P i)))) ∧
    (¬ Real.sqrt (x0 * x0 + x1 * x1 + x2 * x2) ≤ P.precip_inner_boundary →
      ¬ x0 ≤ P.precip_start_x → precipStep P i p = (p, none)) ∧
    dvlen p.x = some (Real.sqrt (x0 * x0 + x1 * x1 + x2 * x2)) := by
  have hlen : dvlen p.x = some (Real.sqrt (x0 * x0 + x1 * x1 + x2 * x2)) := by
    rw [hx]; exact dvlen_real x0 x1 x2
  refine ⟨?_, ?_, ?_, hlen⟩
  · intro hle
    unfold precipStep
    rw [hlen]
    simp only [hx, if_pos hle]
    rfl
  · intro hgt hxle
    unfold precipStep
    rw [hlen]
    simp only [hx, if_neg hgt]
    simp only [dr, if_pos hxle]
  · intro hgt hxgt
    unfold precipStep
    rw [hlen]
    simp only [hx, if_neg hgt]
    simp only [dr, if_neg hxgt]

/-- Witness for claim C5: a particle at (1,0,0) with inner boundary 2 is
recorded as precipitated and disabled in one step. -/
theorem precip_afterPush_boundary_cases_witness :
    precipStep ⟨0, 1, 2, 1⟩ 0 ⟨1, 1, ⟨dr 1, dr 0, dr 0⟩, dzeroVec⟩
      = (disableP ⟨1, 1, ⟨dr 1, dr 0, dr 0⟩, dzeroVec⟩,
        some (.precipitated 0 (precipStartTimestep ⟨0, 1, 2, 1⟩ 0)
          (precipStartPos ⟨0, 1, 2, 1⟩ 0) (dr (atan2 0 1))
          (ddiv (dmul (dr (0.5 * 1)) (ddot dzeroVec dzeroVec)) (dr elemCharge)))) := by
  have hs : Real.sqrt (1 * 1 + 0 * 0 + 0 * 0) ≤ (2 : ℝ) := by
    have h1 : (1 : ℝ) * 1 + 0 * 0 + 0 * 0 = 1 := by norm_num
    rw [h1, Real.sqrt_one]; norm_num
  exact (precip_afterPush_boundary_cases ⟨0, 1, 2, 1⟩ 0
    ⟨1, 1, ⟨dr 1, dr 0, dr 0⟩, dzeroVec⟩ 1 0 0 rfl).1 hs

/-! ## Shock-reflectivity scenario (src/unnamed/part_000 lines 172-274) -/

/-- The ParticleParameters statics consumed by the shock-reflectivity scenario
(parameters.h/.cpp are not among the provided sources; values abstract). -/
structure ShockParams where
  reflect_start_y : ℝ
  reflect_stop_y : ℝ
  reflect_y_scale : ℝ
  reflect_x_offset : ℝ
  reflect_downstream_boundary : ℝ
  reflect_upstream_boundary : ℝ
  start_time : ℝ
  input_dt : ℝ
  num_particles : ℕ

/-- The time-varying shock-front x at a given y (part_000 lines 237-240,
identical formula at lines 189-192): x = y/start_y; x *= -x; x *= scale term;
x += offset term.  10e6 is the C literal for 10^7. -/
noncomputable def shockFrontX (P : ShockParams) (time y : ℝ) : ℝ :=
  let x1 := y / P.reflect_start_y
  let x2 := x1 * (-x1)
  let x3 := x2 * (P.reflect_y_scale - 10000000 * (time - 250) / 435)
  x3 + (P.reflect_x_offset + 10000000 * (time - 250) / 435)

/-- The injection timestep the shock afterPush recovers from a particle index
(part_000 line 248): i / 200 / num_particles. -/
def shockStartTimestep (P : ShockParams) (i : ℕ) : ℕ := i / 200 / P.num_particles

/-- The start time the shock afterPush reconstructs (part_000 line 249). -/
noncomputable def shockStartTime (P : ShockParams) (i : ℕ) : ℝ :=
  P.start_time + (shockStartTimestep P i : ℝ) * P.input_dt

/-- Which accumulator a shock event went to. -/
inductive STag where
  | transmitted
  | reflected
deriving DecidableEq

/-- One `addValue` call of the shock afterPush, tagged with the index of the
particle that triggered it; the accumulator receives the (y, start_time)
payload. -/
structure SEvent where
  idx : ℕ
  tag : STag
  y : ℝ
  stime : ℝ

/-- The body of the shock afterPush loop for the particle at index i
(part_000 lines 226-266): skip when the position length is NaN; record as
transmitted and disable when x is left of the downstream boundary; record as
reflected and disable when x is right of the upstream boundary. -/
noncomputable def shockStep (P : ShockParams) (time : ℝ) (i : ℕ) (p : DParticle) :
    DParticle × Option SEvent :=
  match dvlen p.x with
  | none => (p, none)
  | some _ =>
      match p.x.d0, p.x.d1 with
      | some x0, some y =>
          let x := shockFrontX P time y
          let boundary_left := x - P.reflect_downstream_boundary
          let boundary_right := x + P.reflect_upstream_boundary
          if x0 < boundary_left then
            (disableP p, some ⟨i, .transmitted, y, shockStartTime P i⟩)
          else if boundary_right < x0 then
            (disableP p, some ⟨i, .reflected, y, shockStartTime P i⟩)
          else (p, none)
      | _, _ => (p, none)

/-- The shock afterPush loop, threading the particle index. -/
noncomputable def shockLoop (P : ShockParams) (time : ℝ) :
    ℕ → List DParticle → List DParticle × List SEvent
  | _, [] => ([], [])
  | i, p :: rest =>
      let s := shockStep P time i p
      let r := shockLoop P time (i + 1) rest
      (s.1 :: r.1, (match s.2 with | some e => [e] | none => []) ++ r.2)

/-- The hook `shockReflectivityScenario::afterPush` over the whole population. -/
noncomputable def shockAfterPush (P : ShockParams) (time : ℝ)
    (ps : List DParticle) : List DParticle × List SEvent :=
  shockLoop P time 0 ps

/-- A sequence of afterPush calls at the given times, accumulating every
event recorded into the transmitted/reflected accumulators. -/
noncomputable def shockRun (P : ShockParams) :
    List ℝ → List DParticle → List DParticle × List SEvent
  | [], ps => (ps, [])
  | t :: ts, ps =>
      let a := shockAfterPush P t ps
      let r := shockRun P ts a.1
      (r.1, a.2 ++ r.2)

/-- The NaN-aware length is NaN whenever the first component is NaN. -/
theorem dvlen_none_d0 (x : DVec3) (h : x.d0 = none) : dvlen x = none := by
  unfold dvlen ddot
  rw [h]
  rfl

/-- The shock afterPush body skips a particle whose position's first component
is NaN: the particle is returned unchanged and no event is recorded. -/
theorem shockStep_disabled (P : ShockParams) (time : ℝ) (i : ℕ) (p : DParticle)
    (h : p.x.d0 = none) : shockStep P time i p = (p, none) := by
  unfold shockStep
  rw [dvlen_none_d0 p.x h]

/-- Case analysis of the shock afterPush body: either it leaves the particle
alone with no event, or the guard passed, exactly one boundary test fired, and
the particle is disabled while one tagged event is recorded. -/
theorem shockStep_cases (P : ShockParams) (time : ℝ) (i : ℕ) (p : DParticle) :
    shockStep P time i p = (p, none) ∨
    (∃ x0 y : ℝ, p.x.d0 = some x0 ∧ p.x.d1 = some y ∧
      ((x0 < shockFrontX P time y - P.reflect_downstream_boundary ∧
        shockStep P time i p
          = (disableP p, some ⟨i, .transmitted, y, shockStartTime P i⟩)) ∨
       (¬ x0 < shockFrontX P time y - P.reflect_downstream_boundary ∧
        shockFrontX P time y + P.reflect_upstream_boundary < x0 ∧
        shockStep P time i p
          = (disableP p, some ⟨i, .reflected, y, shockStartTime P i⟩)))) := by
  unfold shockStep
  rcases hl : dvlen p.x with _ | r
  · exact Or.inl rfl
  · rcases hx0 : p.x.d0 with _ | x0
    · exact Or.inl rfl
    · rcases hx1 : p.x.d1 with _ | y
      · exact Or.inl rfl
      · by_cases h1 : x0 < shockFrontX P time y - P.reflect_downstream_boundary
        · refine Or.inr ⟨x0, y, rfl, rfl, Or.inl ⟨h1, ?_⟩⟩
          simp only [if_pos h1]
        · by_cases h2 : shockFrontX P time y + P.reflect_upstream_boundary < x0
          · refine Or.inr ⟨x0, y, rfl, rfl, Or.inr ⟨h1, h2, ?_⟩⟩
            simp only [if_neg h1, if_pos h2]
          · refine Or.inl ?_
            simp only [if_neg h1, if_neg h2]

/-- When the shock afterPush body records an event, the event carries the
particle's index and the returned particle is disabled. -/
theorem shockStep_event (P : ShockParams) (time : ℝ) (i : ℕ) (p : DParticle)
    (e : SEvent) (h : (shockStep P time i p).2 = some e) :
    e.idx = i ∧ (shockStep P time i p).1.x.d0 = none := by
  rcases shockStep_cases P time i p with hc | ⟨x0, y, _, _, ⟨_, hc⟩ | ⟨_, _, hc⟩⟩
  · rw [hc] at h; exact absurd h (by simp)
  · rw [hc] at h ⊢
    cases Option.some.inj h
    exact ⟨rfl, rfl⟩
  · rw [hc] at h ⊢
    cases Option.some.inj h
    exact ⟨rfl, rfl⟩

/-- The shock loop preserves the population's length. -/
theorem shockLoop_length (P : ShockParams) (time : ℝ) :
    ∀ (ps : List DParticle) (i0 : ℕ),
      (shockLoop P time i0 ps).1.length = ps.length := by
  intro ps
  induction ps with
  | nil => intro i0; rfl
  | cons p rest ih =>
      intro i0
      simp only [shockLoop, List.length_cons]
      rw [ih (i0 + 1)]

/-- Every event the shock loop records carries an index in the window of the
particles it visited. -/
theorem shockLoop_event_idx (P : ShockParams) (time : ℝ) :
    ∀ (ps : List DParticle) (i0 : ℕ) (e : SEvent),
      e ∈ (shockLoop P time i0 ps).2 → i0 ≤ e.idx ∧ e.idx < i0 + ps.length := by
  intro ps
  induction ps with
  | nil => intro i0 e he; exact absurd he (by simp [shockLoop])
  | cons p rest ih =>
      intro i0 e he
      simp only [shockLoop, List.mem_append] at he
      rcases he with he | he
      · rcases hstep : (shockStep P time i0 p).2 with _ | ev
        · rw [hstep] at he; exact absurd he (by simp)
        · rw [hstep] at he
          rw [List.mem_singleton] at he
          subst he
          have := (shockStep_event P time i0 p e hstep).1
          simp only [this, List.length_cons]
          omega
      · have := ih (i0 + 1) e he
        simp only [List.length_cons]
        omega

/-- Within one shock afterPush call, each particle index is recorded at most
once: the transmitted and reflected branches are mutually exclusive and the
loop visits each index once. -/
theorem shockLoop_count_le_one (P : ShockParams) (time : ℝ) :
    ∀ (ps : List DParticle) (i0 j : ℕ),
      ((shockLoop P time i0 ps).2.countP (fun e => e.idx == j)) ≤ 1 := by
  intro ps
  induction ps with
  | nil => intro i0 j; simp [shockLoop]
  | cons p rest ih =>
      intro i0 j
      simp only [shockLoop, List.countP_append]
      rcases hstep : (shockStep P time i0 p).2 with _ | ev
      · simpa using ih (i0 + 1) j
      · have hidx : ev.idx = i0 := (shockStep_event P time i0 p ev hstep).1
        by_cases hji : j = i0
        · have htail : ((shockLoop P time (i0 + 1) rest).2.countP
              (fun e => e.idx == j)) = 0 := by
            rw [List.countP_eq_zero]
            intro e he
            have := (shockLoop_event_idx P time rest (i0 + 1) e he).1
            simp only [beq_iff_eq]
            omega
          rw [htail]
          simp [List.countP_cons, hidx, hji]
        · have hne : i0 ≠ j := fun h => hji h.symm
          have h1 := ih (i0 + 1) j
          simp [List.countP_cons, hidx, hne]
          omega

/-- When the shock loop records an event, the corresponding output slot holds
a disabled particle. -/
theorem shockLoop_event_disables (P : ShockParams) (time : ℝ) :
    ∀ (ps : List DParticle) (i0 : ℕ) (e : SEvent),
      e ∈ (shockLoop P time i0 ps).2 →
      ∃ q, (shockLoop P time i0 ps).1[e.idx - i0]? = some q ∧ q.x.d0 = none := by
  intro ps
  induction ps with
  | nil => intro i0 e he; exact absurd he (by simp [shockLoop])
  | cons p rest ih =>
      intro i0 e he
      simp only [shockLoop, List.mem_append] at he
      rcases he with he | he
      · rcases hstep : (shockStep P time i0 p).2 with _ | ev
        · rw [hstep] at he; exact absurd he (by simp)
        · rw [hstep] at he
          rw [List.mem_singleton] at he
          subst he
          obtain ⟨hidx, hdis⟩ := shockStep_event P time i0 p e hstep
          refine ⟨(shockStep P time i0 p).1, ?_, hdis⟩
          simp only [shockLoop, hidx, Nat.sub_self, List.getElem?_cons_zero]
      · obtain ⟨q, hq, hqd⟩ := ih (i0 + 1) e he
        have hge : i0 + 1 ≤ e.idx := (shockLoop_event_idx P time rest (i0 + 1) e he).1
        refine ⟨q, ?_, hqd⟩
        have hsub : e.idx - i0 = (e.idx - (i0 + 1)) + 1 := by omega
        simp only [shockLoop, hsub, List.getElem?_cons_succ]
        exact hq

/-- A disabled particle passes through the shock loop unchanged. -/
theorem shockLoop_disabled_keep (P : ShockParams) (time : ℝ) :
    ∀ (ps : List DParticle) (i0 k : ℕ) (p : DParticle),
      ps[k]? = some p → p.x.d0 = none →
      (shockLoop P time i0 ps).1[k]? = some p := by
  intro ps
  induction ps with
  | nil => intro i0 k p hk; simp at hk
  | cons p0 rest ih =>
      intro i0 k p hk hd
      cases k with
      | zero =>
          rw [List.getElem?_cons_zero] at hk
          cases Option.some.inj hk
          simp only [shockLoop, List.getElem?_cons_zero]
          rw [shockStep_disabled P time i0 p0 hd]
      | succ k =>
          rw [List.getElem?_cons_succ] at hk
          simp only [shockLoop, List.getElem?_cons_succ]
          exact ih (i0 + 1) k p hk hd

/-- A disabled particle triggers no event in the shock loop. -/
theorem shockLoop_disabled_no_event (P : ShockParams) (time : ℝ) :
    ∀ (ps : List DParticle) (i0 k : ℕ) (p : DParticle),
      ps[k]? = some p → p.x.d0 = none →
      ∀ e ∈ (shockLoop P time i0 ps).2, e.idx ≠ i0 + k := by
  intro ps
  induction ps with
  | nil => intro i0 k p hk; simp at hk
  | cons p0 rest ih =>
      intro i0 k p hk hd e he
      simp only [shockLoop, List.mem_append] at he
      cases k with
      | zero =>
          rw [List.getElem?_cons_zero] at hk
          cases Option.some.inj hk
          rcases he with he | he
          · rw [shockStep_disabled P time i0 p0 hd] at he
            exact absurd he (by simp)
          · have := (shockLoop_event_idx P time rest (i0 + 1) e he).1
            omega
      | succ k =>
          rw [List.getElem?_cons_succ] at hk
          rcases he with he | he
          · rcases hstep : (shockStep P time i0 p0).2 with _ | ev
            · rw [hstep] at he; exact absurd he (by simp)
            · rw [hstep] at he
              rw [List.mem_singleton] at he
              subst he
              have := (shockStep_event P time i0 p0 e hstep).1
              omega
          · have := ih (i0 + 1) k p hk hd e he
            omega

/-- Once a population slot is disabled, no later afterPush call records it. -/
theorem shockRun_disabled_count_zero (P : ShockParams) :
    ∀ (ts : List ℝ) (ps : List DParticle) (j : ℕ) (p : DParticle),
      ps[j]? = some p → p.x.d0 = none →
      ((shockRun P ts ps).2.countP (fun e => e.idx == j)) = 0 := by
  intro ts
  induction ts with
  | nil => intro ps j p _ _; rfl
  | cons t ts ih =>
      intro ps j p hj hd
      simp only [shockRun, List.countP_append]
      have hcall : ((shockAfterPush P t ps).2.countP (fun e => e.idx == j)) = 0 := by
        rw [List.countP_eq_zero]
        intro e he
        have := shockLoop_disabled_no_event P t ps 0 j p hj hd e he
        simp only [beq_iff_eq]
        omega
      have hkeep : (shockAfterPush P t ps).1[j]? = some p :=
        shockLoop_disabled_keep P t ps 0 j p hj hd
      rw [hcall, ih (shockAfterPush P t ps).1 j p hkeep hd]

/-- Claim C4: across any sequence of shock-reflectivity afterPush calls, each
particle index is recorded at most once in total across the transmitted and
reflected accumulators — recording disables the particle, the isnan guard
skips disabled particles before the boundary predicates, and the two branches
are mutually exclusive within one call. -/
theorem shock_records_each_particle_at_most_once (P : ShockParams)
    (ts : List ℝ) (ps : List DParticle) (j : ℕ) :
    ((shockRun P ts ps).2.countP (fun e => e.idx == j)) ≤ 1 := by
  induction ts generalizing ps with
  | nil => simp [shockRun]
  | cons t ts ih =>
      simp only [shockRun, List.countP_append]
      by_cases hex : ∃ e ∈ (shockAfterPush P t ps).2, e.idx = j
      · obtain ⟨e, he, hej⟩ := hex
        obtain ⟨q, hq, hqd⟩ := shockLoop_event_disables P t ps 0 e he
        rw [hej, Nat.sub_zero] at hq
        have hrest : ((shockRun P ts (shockAfterPush P t ps).1).2.countP
            (fun e => e.idx == j)) = 0 :=
          shockRun_disabled_count_zero P ts (shockAfterPush P t ps).1 j q hq hqd
        have hcall : ((shockAfterPush P t ps).2.countP (fun e => e.idx == j)) ≤ 1 :=
          shockLoop_count_le_one P t ps 0 j
        omega
      · have hcall : ((shockAfterPush P t ps).2.countP (fun e => e.idx == j)) = 0 := by
          rw [List.countP_eq_zero]
          intro e he
          simp only [beq_iff_eq]
          exact fun hej => hex ⟨e, he, hej⟩
        rw [hcall]
        simpa using ih (shockAfterPush P t ps).1

/-! ## Snapshot writer (src/particles/particles.cpp lines 24-64) -/

open Classical in
/-- The skip predicate of writeParticles (particles.cpp lines 34 and 52):
`vector_length(p[i].x) == 0`.  A NaN length compares unequal to zero, as in
IEEE, so NaN-positioned particles are not skipped by this predicate. -/
noncomputable def skipZero (p : DParticle) : Bool :=
  match dvlen p.x with
  | some r => if r = 0 then true else false
  | none => false

/-- The positions array writeParticles serializes (first loop, lines 32-40). -/
noncomputable def writeParticlesPos : List DParticle → List DVec3
  | [] => []
  | p :: rest =>
      if skipZero p then writeParticlesPos rest
      else p.x :: writeParticlesPos rest

/-- The velocities array writeParticles serializes (second loop, lines 50-57). -/
noncomputable def writeParticlesVel : List DParticle → List DVec3
  | [] => []
  | p :: rest =>
      if skipZero p then writeParticlesVel rest
      else p.v :: writeParticlesVel rest

theorem writeParticlesPos_eq_filter (ps : List DParticle) :
    writeParticlesPos ps = (ps.filter (fun p => !skipZero p)).map DParticle.x := by
  induction ps with
  | nil => rfl
  | cons p rest ih =>
      by_cases h : skipZero p
      · simp [writeParticlesPos, List.filter_cons, h, ih]
      · simp [writeParticlesPos, List.filter_cons, h, ih]

theorem writeParticlesVel_eq_filter (ps : List DParticle) :
    writeParticlesVel ps = (ps.filter (fun p => !skipZero p)).map DParticle.v := by
  induction ps with
  | nil => rfl
  | cons p rest ih =>
      by_cases h : skipZero p
      · simp [writeParticlesVel, List.filter_cons, h, ih]
      · simp [writeParticlesVel, List.filter_cons, h, ih]

/-- Claim C6: writeParticles selects, in both arrays and in the same order,
exactly the particles whose position length is not exactly zero: the two
serialized arrays are the x- and v-projections of the same filtered
population; a particle at the origin is skipped, and a NaN-positioned
particle is not skipped (NaN length compares unequal to zero). -/
theorem writeParticles_skips_exactly_zero_length (ps : List DParticle) :
    writeParticlesPos ps = (ps.filter (fun p => !skipZero p)).map DParticle.x ∧
    writeParticlesVel ps = (ps.filter (fun p => !skipZero p)).map DParticle.v ∧
    (∀ p : DParticle, p.x = dzeroVec → skipZero p = true) ∧
    (∀ p : DParticle, p.x.d0 = none → skipZero p = false) := by
  refine ⟨writeParticlesPos_eq_filter ps, writeParticlesVel_eq_filter ps, ?_, ?_⟩
  · intro p hp
    have hlen : dvlen p.x = some (Real.sqrt (0 * 0 + 0 * 0 + 0 * 0)) := by
      rw [hp]; exact dvlen_real 0 0 0
    have hzero : Real.sqrt (0 * 0 + 0 * 0 + 0 * 0) = 0 := by
      norm_num
    unfold skipZero
    rw [hlen, hzero]
    simp
  · intro p hp
    unfold skipZero
    rw [dvlen_none_d0 p.x hp]

/-- Witness for claim C6: the origin-positioned particle is skipped, the
NaN-positioned particle is not. -/
theorem writeParticles_skips_zero_witness :
    skipZero ⟨1, 1, dzeroVec, dzeroVec⟩ = true ∧
    skipZero ⟨1, 1, dnanPos, dzeroVec⟩ = false :=
  ⟨(writeParticles_skips_exactly_zero_length []).2.2.1 ⟨1, 1, dzeroVec, dzeroVec⟩ rfl,
   (writeParticles_skips_exactly_zero_length []).2.2.2 ⟨1, 1, dnanPos, dzeroVec⟩ rfl⟩

/-! ## Index-encoded provenance (claim C7) -/

/-- The injection x-coordinate `precipitationScenario::newTimestep` gives the
j-th particle of a batch (part_000 lines 114-116). -/
noncomputable def precipInjectX (P : PrecipParams) (j : ℕ) : ℝ :=
  P.precip_start_x + (j : ℝ) / (P.num_particles : ℝ)
    * (P.precip_stop_x - P.precip_start_x)

/-- Looking up index i in a concatenation of constant-length batches lands in
batch i / N at offset i % N. -/
theorem join_const_batches_getElem (N : ℕ) (hN : 0 < N) :
    ∀ (batches : List (List DParticle)), (∀ b ∈ batches, b.length = N) →
    ∀ i : ℕ, i < batches.length * N →
      batches.flatten[i]? = (batches[i / N]?).bind (fun b => b[i % N]?) := by
  intro batches
  induction batches with
  | nil => intro _ i hi; simp at hi
  | cons b bs ih =>
      intro hlen i hi
      have hb : b.length = N := hlen b (List.mem_cons_self b bs)
      by_cases hiN : i < N
      · have hdiv : i / N = 0 := Nat.div_eq_of_lt hiN
        have hmod : i % N = i := Nat.mod_eq_of_lt hiN
        rw [List.flatten_cons, List.getElem?_append,
          if_pos (show i < b.length by omega), hdiv, hmod, List.getElem?_cons_zero]
        rfl
      · have hge : N ≤ i := le_of_not_lt hiN
        have hdiv : i / N = (i - N) / N + 1 := by
          rw [Nat.div_eq_sub_div hN hge]
        have hmod : i % N = (i - N) % N := Nat.mod_eq_sub_mod hge
        rw [List.flatten_cons, List.getElem?_append,
          if_neg (show ¬ i < b.length by omega), hb, hdiv, hmod,
          List.getElem?_cons_succ]
        refine ih (fun c hc => hlen c (List.mem_cons_of_mem b hc)) (i - N) ?_
        simp only [List.length_cons] at hi
        have hexp : (bs.length + 1) * N = bs.length * N + N := by ring
        omega

/-- Claim C7: under the fixed-batch append discipline — the population is the
concatenation of per-timestep batches of a constant size N appended in step
order — the particle at index i sits in batch i / N at offset i % N, which is
exactly the injection step and intra-batch slot the afterPush code recovers:
precipitation recovers i / num_particles (and the injection x from
i % num_particles, matching newTimestep's formula), and shockReflectivity
recovers i / 200 / num_particles = i / (200 * num_particles). -/
theorem index_provenance_recovery (N : ℕ) (hN : 0 < N)
    (batches : List (List DParticle)) (hlen : ∀ b ∈ batches, b.length = N)
    (i : ℕ) (hi : i < batches.length * N) :
    batches.flatten[i]? = (batches[i / N]?).bind (fun b => b[i % N]?) ∧
    (∀ P : PrecipParams, P.num_particles = N → precipStartTimestep P i = i / N) ∧
    (∀ P : ShockParams, 200 * P.num_particles = N → shockStartTimestep P i = i / N) ∧
    (∀ P : PrecipParams, precipStartPos P i = precipInjectX P (i % P.num_particles)) := by
  refine ⟨join_const_batches_getElem N hN batches hlen i hi, ?_, ?_, ?_⟩
  · intro P hP
    unfold precipStartTimestep
    rw [hP]
  · intro P hP
    unfold shockStartTimestep
    rw [Nat.div_div_eq_div_mul, hP]
  · intro P
    rfl

/-- Witness for claim C7: two singleton batches; the particle at index 1 is
recovered as injected at step 1. -/
theorem index_provenance_recovery_witness :
    ([[(⟨1, 1, dzeroVec, dzeroVec⟩ : DParticle)], [⟨1, 1, dnanPos, dzeroVec⟩]].flatten)[1]?
      = (([[(⟨1, 1, dzeroVec, dzeroVec⟩ : DParticle)],
          [⟨1, 1, dnanPos, dzeroVec⟩]])[1 / 1]?).bind (fun b => b[1 % 1]?) ∧
    precipStartTimestep ⟨0, 1, 2, 1⟩ 1 = 1 / 1 := by
  have h := index_provenance_recovery 1 (by norm_num)
    [[⟨1, 1, dzeroVec, dzeroVec⟩], [⟨1, 1, dnanPos, dzeroVec⟩]]
    (by
      intro b hb
      rcases List.mem_cons.mp hb with rfl | hb
      · rfl
      · rcases List.mem_singleton.mp hb with rfl
        rfl)
    1 (by norm_num)
  exact ⟨h.1, h.2.1 ⟨0, 1, 2, 1⟩ rfl⟩

/-! ## Scenario factory (src/unnamed/part_000 lines 276-290) -/

/-- The five scenario variants the factory registers. -/
inductive ScenarioKind where
  | single
  | distribution
  | precipitation
  | analysator
  | reflectivity
deriving DecidableEq

/-- The factory `createScenario` (part_000 lines 276-290): the name-keyed lookup over the
five registered identifiers; the not-found branch prints a diagnostic and
calls exit(0), modelled as `none` (immediate process termination). -/
def createScenario (name : String) : Option ScenarioKind :=
  if name = "single" then some .single
  else if name = "distribution" then some .distribution
  else if name = "precipitation" then some .precipitation
  else if name = "analysator" then some .analysator
  else if name = "reflectivity" then some .reflectivity
  else none

/-- Claim C8: createScenario terminates the process (modelled none) on every
name outside the five registered identifiers, and returns the matching
variant on each registered identifier. -/
theorem createScenario_registered_or_fatal :
    (∀ name : String,
      name ∉ ["single", "distribution", "precipitation", "analysator",
        "reflectivity"] → createScenario name = none) ∧
    createScenario "single" = some .single ∧
    createScenario "distribution" = some .distribution ∧
    createScenario "precipitation" = some .precipitation ∧
    createScenario "analysator" = some .analysator ∧
    createScenario "reflectivity" = some .reflectivity := by
  refine ⟨?_, by decide, by decide, by decide, by decide, by decide⟩
  intro name h
  simp only [List.mem_cons, List.not_mem_nil, or_false, not_or] at h
  obtain ⟨h1, h2, h3, h4, h5⟩ := h
  simp [createScenario, h1, h2, h3, h4, h5]

/-- Witness for claim C8: an unregistered name is fatal. -/
theorem createScenario_unknown_witness : createScenario "unknown" = none :=
  createScenario_registered_or_fatal.1 "unknown" (by decide)

/-! ## Analysator ingestion (src/unnamed/part_000 lines 142-159) -/

/-- The hook `analysatorScenario::initialParticles`: consume complete sextuples
x y z vx vy vz from the token stream, building one proton-mass,
elementary-charge particle per record; a trailing incomplete record fails the
stream and is dropped (lines 149-156). -/
def analysatorInitialParticles : List ℝ → List Particle
  | x0 :: x1 :: x2 :: v0 :: v1 :: v2 :: rest =>
      ⟨protonMass, elemCharge, ⟨x0, x1, x2⟩, ⟨v0, v1, v2⟩⟩
        :: analysatorInitialParticles rest
  | _ => []

theorem analysatorInitialParticles_length :
    ∀ ts : List ℝ, (analysatorInitialParticles ts).length = ts.length / 6
  | [] => by simp [analysatorInitialParticles]
  | [_] => by simp [analysatorInitialParticles]
  | [_, _] => by simp [analysatorInitialParticles]
  | [_, _, _] => by simp [analysatorInitialParticles]
  | [_, _, _, _] => by simp [analysatorInitialParticles]
  | [_, _, _, _, _] => by simp [analysatorInitialParticles]
  | x0 :: x1 :: x2 :: v0 :: v1 :: v2 :: rest => by
      rw [analysatorInitialParticles]
      simp only [List.length_cons]
      rw [analysatorInitialParticles_length rest]
      omega

/-- Claim C9: analysator ingestion yields exactly one particle per complete
sextuple — the population has length (stream length) / 6, each complete
sextuple prepends one particle, and any stream shorter than one record yields
the empty population; truncated input is never an error, merely a truncated
population. -/
theorem analysator_truncated_input (ts : List ℝ) :
    (analysatorInitialParticles ts).length = ts.length / 6 ∧
    (∀ x0 x1 x2 v0 v1 v2 : ℝ, ∀ rest : List ℝ,
      analysatorInitialParticles (x0 :: x1 :: x2 :: v0 :: v1 :: v2 :: rest)
        = ⟨protonMass, elemCharge, ⟨x0, x1, x2⟩, ⟨v0, v1, v2⟩⟩
            :: analysatorInitialParticles rest) ∧
    (∀ short : List ℝ, short.length < 6 → analysatorInitialParticles short = []) := by
  refine ⟨analysatorInitialParticles_length ts, fun _ _ _ _ _ _ _ => rfl, ?_⟩
  intro short hshort
  match short with
  | [] => rfl
  | [_] => rfl
  | [_, _] => rfl
  | [_, _, _] => rfl
  | [_, _, _, _] => rfl
  | [_, _, _, _, _] => rfl
  | _ :: _ :: _ :: _ :: _ :: _ :: _ =>
      simp only [List.length_cons] at hshort
      omega

/-- Witness for claim C9: a seven-token stream yields one particle; a
two-token stream yields none. -/
theorem analysator_truncated_input_witness :
    (analysatorInitialParticles [(1 : ℝ), 2, 3, 4, 5, 6, 7]).length = 7 / 6 ∧
    analysatorInitialParticles [(1 : ℝ), 2] = [] :=
  ⟨(analysator_truncated_input [(1 : ℝ), 2, 3, 4, 5, 6, 7]).1,
   (analysator_truncated_input []).2.2 [(1 : ℝ), 2] (by norm_num)⟩

/-- Claim C10: every particle the analysator ingestion produces carries the
proton-mass and elementary-charge constants; the six input reals determine
only its position and velocity. -/
theorem analysator_sets_proton_constants :
    ∀ ts : List ℝ, ∀ p ∈ analysatorInitialParticles ts,
      p.m = protonMass ∧ p.q = elemCharge
  | [] => by intro p hp; exact absurd hp (by simp [analysatorInitialParticles])
  | [_] => by intro p hp; exact absurd hp (by simp [analysatorInitialParticles])
  | [_, _] => by intro p hp; exact absurd hp (by simp [analysatorInitialParticles])
  | [_, _, _] => by intro p hp; exact absurd hp (by simp [analysatorInitialParticles])
  | [_, _, _, _] => by intro p hp; exact absurd hp (by simp [analysatorInitialParticles])
  | [_, _, _, _, _] => by
      intro p hp; exact absurd hp (by simp [analysatorInitialParticles])
  | x0 :: x1 :: x2 :: v0 :: v1 :: v2 :: rest => by
      intro p hp
      rw [analysatorInitialParticles] at hp
      rcases List.mem_cons.mp hp with rfl | hp
      · exact ⟨rfl, rfl⟩
      · exact analysator_sets_proton_constants rest p hp

/-- Witness for claim C10: the particle built from six zero tokens. -/
theorem analysator_sets_proton_constants_witness :
    (⟨protonMass, elemCharge, ⟨0, 0, 0⟩, ⟨0, 0, 0⟩⟩ : Particle).m = protonMass ∧
    (⟨protonMass, elemCharge, ⟨0, 0, 0⟩, ⟨0, 0, 0⟩⟩ : Particle).q = elemCharge :=
  analysator_sets_proton_constants [0, 0, 0, 0, 0, 0]
    ⟨protonMass, elemCharge, ⟨0, 0, 0⟩, ⟨0, 0, 0⟩⟩
    (List.mem_singleton.mpr rfl)

end Vlasiator
